import Mathlib

/-!
# Verification of `unseal.logit_lense`

A shallow embedding of `src/unseal/logit_lense.py` (the function
`generate_logit_lense`) together with proofs about it.

Modelling conventions:
* Torch tensors are nested lists; a `[layers, positions, vocab]` tensor is a
  `List (List (List α))`.
* Float arithmetic is idealised: logits live in an arbitrary
  `LinearOrderedCommRing` (instantiated at `ℤ` for executable witnesses and at
  `ℝ` for the analytic claims); `torch.exp`/`torch.log` are passed in as
  function parameters `expf`/`logf` and instantiated with `Real.exp`/`Real.log`
  where the claim is about real softmax arithmetic.
* `torch.argsort(·, descending=True)` leaves the relative order of tied values
  unspecified; the embedding fixes the stable choice (ties keep index order),
  which is one of the behaviours the implementation may exhibit.
* Python exceptions are modelled with `Except String`; in particular the
  final line `return logits[:,:-1], ranks, kl_div[:,:-1]` subscripts `kl_div`
  even when it is `None`, which raises a `TypeError` in Python and is an
  `Except.error` here.
* Logging output is modelled as an explicit list of emitted warning lines.
-/

namespace Unseal

/-- A matrix (`positions × vocab` or `layers × positions`): a list of rows. -/
abbrev Mat (α : Type) := List (List α)

/-- A three-dimensional tensor `layers × positions × vocab`. -/
abbrev T3 (α : Type) := List (List (List α))

/-- Modelled from the spec: the external model collaborator (`HookedModel`
together with `get_num_layers` and the `logit_hook` capture machinery live in
`unseal.hooks`, outside `src/`).  Per spec §6 the model reports its layer count
and, after a forward pass on a token sequence with the per-layer logit hooks
attached, exposes for each layer index the captured `positions × vocab` logit
matrix (`save_ctx[f"{layer}_logits"]["logits"][0]`).  `run toks l` is that
captured matrix for layer `l`. -/
structure HookedModel (α : Type) where
  numLayers : Nat
  run : List Nat → Nat → Mat α

/-- Comparison used to embed `torch.argsort(·, dim=-1, descending=True)` on
`(index, value)` pairs: larger values first, ties broken by original index
(the stable resolution of torch's unspecified tie order). -/
def descRel {α : Type} [LinearOrder α] (a b : Nat × α) : Prop :=
  b.2 < a.2 ∨ (a.2 = b.2 ∧ a.1 ≤ b.1)

instance {α : Type} [LinearOrder α] : DecidableRel (descRel (α := α)) :=
  fun _ _ => inferInstanceAs (Decidable (_ ∨ _))

/-- Comparison used to embed `torch.argsort(·, dim=-1)` (ascending) on
`(index, value)` pairs: smaller values first, ties broken by original index. -/
def ascRel (a b : Nat × Nat) : Prop :=
  a.2 < b.2 ∨ (a.2 = b.2 ∧ a.1 ≤ b.1)

instance : DecidableRel ascRel :=
  fun _ _ => inferInstanceAs (Decidable (_ ∨ _))

instance {α : Type} [LinearOrder α] : IsTrans (Nat × α) descRel := by
  constructor
  intro a b c hab hbc
  rcases hab with h1 | ⟨h1, h2⟩ <;> rcases hbc with h3 | ⟨h3, h4⟩
  · exact Or.inl (h3.trans h1)
  · exact Or.inl (h3 ▸ h1)
  · exact Or.inl (by rw [h1]; exact h3)
  · exact Or.inr ⟨h1.trans h3, h2.trans h4⟩

instance {α : Type} [LinearOrder α] : IsTotal (Nat × α) descRel := by
  constructor
  intro a b
  rcases lt_trichotomy a.2 b.2 with h | h | h
  · exact Or.inr (Or.inl h)
  · rcases Nat.le_total a.1 b.1 with h' | h'
    · exact Or.inl (Or.inr ⟨h, h'⟩)
    · exact Or.inr (Or.inr ⟨h.symm, h'⟩)
  · exact Or.inl (Or.inl h)

instance : IsTrans (Nat × Nat) ascRel := by
  constructor
  intro a b c hab hbc
  simp only [ascRel] at *
  omega

instance : IsTotal (Nat × Nat) ascRel := by
  constructor
  intro a b
  simp only [ascRel]
  omega

/-- `torch.argsort(v, descending=True)` on one vocabulary vector. -/
def argsortDesc {α : Type} [LinearOrder α] (v : List α) : List Nat :=
  (v.enum.insertionSort descRel).map Prod.fst

/-- `torch.argsort(v)` (ascending) on one index vector. -/
def argsortAsc (v : List Nat) : List Nat :=
  (v.enum.insertionSort ascRel).map Prod.fst

/-- The per-vector rank computation of lines 57-59 of the source:
`ranks = torch.argsort(torch.argsort(v, descending=True)) + 1`. -/
def ranksOf {α : Type} [LinearOrder α] (v : List α) : List Nat :=
  (argsortAsc (argsortDesc v)).map (· + 1)

/-- One layer of the advanced-indexing step
`ranks[:, torch.arange(len(targets)), targets]`: walk the target list, reading
entry `targets[i]` of row `i` of the layer's rank matrix; an out-of-range
index raises (torch `IndexError`). -/
def selectRowAux (mat : Mat Nat) : Nat → List Nat → Except String (List Nat)
  | _, [] => Except.ok []
  | i, t :: ts =>
    match (mat.get? i).bind (fun row => row.get? t) with
    | some x => (selectRowAux mat (i + 1) ts).map (fun l => x :: l)
    | none => Except.error "IndexError: index out of range"

/-- `ranks[:, torch.arange(len(targets)), targets]`, applied layer-wise. -/
def selectRanks : T3 Nat → List Nat → Except String (Mat Nat)
  | [], _ => Except.ok []
  | m :: ms, ts =>
    match selectRowAux m 0 ts with
    | Except.error e => Except.error e
    | Except.ok r =>
      match selectRanks ms ts with
      | Except.error e => Except.error e
      | Except.ok rs => Except.ok (r :: rs)

/-- `torch.nn.LogSoftmax(dim=-1)` on one vocabulary vector, idealised over the
ring: `x ↦ x - log (Σ exp x)`. -/
def logSoftmaxVec {α : Type} [LinearOrderedCommRing α] (expf logf : α → α)
    (w : List α) : List α :=
  w.map (fun x => x - logf ((w.map expf).sum))

/-- One `(layer, position)` cell of
`KLDivLoss(reduction="none", log_target=True)(log_probs, target).sum(dim=-1)`:
with both arguments in log space the pointwise loss is
`exp(target) * (target - input)`, summed over the vocabulary axis. -/
def klPointwiseRow {α : Type} [LinearOrderedCommRing α] (expf : α → α)
    (tRow iRow : List α) : α :=
  (List.zipWith (fun t i => expf t * (t - i)) tRow iRow).sum

/-- Lines 65-67 of the source: log-softmax the stacked logits and take the
summed pointwise KL divergence of every layer against the final layer
(`log_probs[-1]`, broadcast over the layer axis). -/
def klCompute {α : Type} [LinearOrderedCommRing α] (expf logf : α → α)
    (logits : T3 α) : Mat α :=
  let log_probs := logits.map (fun m => m.map (logSoftmaxVec expf logf))
  let final := log_probs.getLastD []
  log_probs.map (fun lp => List.zipWith (klPointwiseRow expf) final lp)

/-- The trailing slice `x[:, :-1]`: drop the last entry of axis 1. -/
def sliceOffLast {β : Type} (x : List (List β)) : List (List β) :=
  x.map List.dropLast

/-- The warning emitted by `logging.warning` when `include_input` is set. -/
def warnLogs (include_input : Bool) : List String :=
  if include_input then ["include_input is not implemented yet"] else []

/-- Shallow embedding of `generate_logit_lense` (src/unseal/logit_lense.py).
`encode` stands for `tokenizer.encode`; `expf`/`logf` are the idealised
exponential/logarithm used by the softmax/KL steps.  The first component is
the returned triple (or the raised exception), the second the list of warning
log lines emitted during the call. -/
def generate_logit_lense {α : Type} [LinearOrderedCommRing α]
    (M : HookedModel α) (expf logf : α → α)
    (encode : String → List Nat) (sentence : String)
    (ranks kl_div include_input : Bool) :
    Except String (T3 α × Option (Mat Nat) × Option (Mat α)) × List String :=
  let logs := warnLogs include_input
  let tokenized_sentence := encode sentence
  let targets := (encode sentence).drop 1
  let num_layers := M.numLayers
  let body : Except String (T3 α × Option (Mat Nat) × Option (Mat α)) :=
    if num_layers = 0 then
      -- torch.stack on an empty list of tensors raises
      Except.error "RuntimeError: stack expects a non-empty TensorList"
    else
      let logits : T3 α := (List.range num_layers).map (M.run tokenized_sentence)
      let ranksSel : Except String (Option (Mat Nat)) :=
        if ranks then
          (selectRanks (logits.map (fun m => m.map ranksOf)) targets).map
            (fun s => some s)
        else Except.ok none
      match ranksSel with
      | Except.error e => Except.error e
      | Except.ok ranksOut =>
        let klOut : Option (Mat α) :=
          if kl_div then some (klCompute expf logf logits) else none
        match klOut with
        | none =>
          -- `return logits[:,:-1], ranks, kl_div[:,:-1]` with kl_div = None
          Except.error "TypeError: NoneType object is not subscriptable"
        | some k =>
          Except.ok (sliceOffLast logits, ranksOut, some (sliceOffLast k))
  (body, logs)

/-- Shape assumption on the external collaborators (spec §3): after a forward
pass on `toks`, every layer's captured logit matrix has one row per token
position and one column per vocabulary id. -/
def WellFormed {α : Type} (M : HookedModel α) (toks : List Nat) (vocab : Nat) : Prop :=
  ∀ l < M.numLayers,
    (M.run toks l).length = toks.length ∧ ∀ row ∈ M.run toks l, row.length = vocab

/-- Mathematical softmax over `ℝ`, used to state what direction of KL
divergence the code computes. -/
noncomputable def softmaxSpec (w : List ℝ) : List ℝ :=
  w.map (fun x => Real.exp x / (w.map Real.exp).sum)

/-- The claimed value of a KL cell: `KL(P_final ∥ P_l)` at one position, i.e.
`Σ_v softmax(final)[v] * (log_softmax(final)[v] - log_softmax(layer)[v])`. -/
noncomputable def klDirSpec (wF wL : List ℝ) : ℝ :=
  (List.zipWith (fun s d => s * d) (softmaxSpec wF)
    (List.zipWith (fun a b => a - b)
      (logSoftmaxVec Real.exp Real.log wF)
      (logSoftmaxVec Real.exp Real.log wL))).sum

/-- A model whose hooks capture the same fixed logit matrix at every layer;
used to evaluate the pipeline on concrete inputs. -/
def constModel (α : Type) (n : Nat) (m : Mat α) : HookedModel α :=
  ⟨n, fun _ _ => m⟩

/-- A tokenizer that encodes every sentence to a fixed id sequence; used to
evaluate the pipeline on concrete inputs. -/
def constEnc (ts : List Nat) : String → List Nat :=
  fun _ => ts

/-- Extract the `[l][p]` entry of the optional ranks component of a result. -/
def ranksEntry (out : Except String (T3 Int × Option (Mat Nat) × Option (Mat Int)))
    (l p : Nat) : Nat :=
  match out with
  | Except.ok (_, some r, _) => (r.getD l []).getD p 0
  | _ => 0

/-! ## Basic shape lemmas -/

theorem getD_eq_getElem_of_lt {β : Type} (l : List β) (d : β) {k : Nat}
    (h : k < l.length) : l.getD k d = l[k] := by
  rw [List.getD_eq_getElem?_getD, List.getElem?_eq_getElem h]
  rfl

theorem length_argsortDesc {α : Type} [LinearOrder α] (v : List α) :
    (argsortDesc v).length = v.length := by
  simp [argsortDesc]

theorem length_argsortAsc (v : List Nat) :
    (argsortAsc v).length = v.length := by
  simp [argsortAsc]

theorem length_ranksOf {α : Type} [LinearOrder α] (v : List α) :
    (ranksOf v).length = v.length := by
  simp [ranksOf, length_argsortAsc, length_argsortDesc]

theorem mem_argsortAsc_lt {v : List Nat} {i : Nat} (h : i ∈ argsortAsc v) :
    i < v.length := by
  simp only [argsortAsc, List.mem_map] at h
  obtain ⟨a, ha, rfl⟩ := h
  exact List.fst_lt_of_mem_enum ((List.mem_insertionSort ascRel).mp ha)

theorem mem_ranksOf {α : Type} [LinearOrder α] {v : List α} {x : Nat}
    (h : x ∈ ranksOf v) : 1 ≤ x ∧ x ≤ v.length := by
  simp only [ranksOf, List.mem_map] at h
  obtain ⟨i, hi, rfl⟩ := h
  have := mem_argsortAsc_lt hi
  rw [length_argsortDesc] at this
  omega

/-! ## Lemmas about the advanced-indexing step -/

theorem selectRowAux_ok_length {mat : Mat Nat} :
    ∀ {ts : List Nat} {i : Nat} {out : List Nat},
      selectRowAux mat i ts = Except.ok out → out.length = ts.length := by
  intro ts
  induction ts with
  | nil => intro i out h; cases h; rfl
  | cons t ts ih =>
    intro i out h
    simp only [selectRowAux] at h
    cases hl : (mat.get? i).bind (fun row => row.get? t) with
    | none => rw [hl] at h; cases h
    | some x =>
      rw [hl] at h
      cases hr : selectRowAux mat (i + 1) ts with
      | error e => rw [hr] at h; cases h
      | ok l =>
        rw [hr] at h
        cases h
        simp [ih hr]

theorem selectRowAux_ok_of_bounds {mat : Mat Nat} :
    ∀ {ts : List Nat} {i : Nat},
      (∀ j, (hj : j < ts.length) →
        i + j < mat.length ∧ ts.getD j 0 < (mat.getD (i + j) []).length) →
      ∃ out, selectRowAux mat i ts = Except.ok out := by
  intro ts
  induction ts with
  | nil => intro i _; exact ⟨[], rfl⟩
  | cons t ts ih =>
    intro i hb
    have h0 := hb 0 (by simp)
    simp only [Nat.add_zero, List.getD_cons_zero] at h0
    have hrow : mat[i]? = some (mat.getD i []) := by
      rw [getD_eq_getElem_of_lt _ _ h0.1]
      exact List.getElem?_eq_getElem h0.1
    have hcell : (mat.getD i [])[t]? = some ((mat.getD i []).getD t 0) := by
      rw [getD_eq_getElem_of_lt _ _ h0.2]
      exact List.getElem?_eq_getElem h0.2
    obtain ⟨out, hout⟩ := @ih (i + 1) (fun j hj => by
      have := hb (j + 1) (by simpa using Nat.succ_lt_succ hj)
      simpa [Nat.add_assoc, Nat.add_comm 1 j, Nat.add_left_comm] using this)
    refine ⟨(mat.getD i []).getD t 0 :: out, ?_⟩
    have hscrut : (mat.get? i).bind (fun row => row.get? t)
        = some ((mat.getD i []).getD t 0) := by
      rw [List.get?_eq_getElem?, hrow, Option.some_bind, List.get?_eq_getElem?]
      exact hcell
    simp only [selectRowAux, hscrut]
    rw [hout]
    rfl

theorem selectRowAux_mem {mat : Mat Nat} :
    ∀ {ts : List Nat} {i : Nat} {out : List Nat},
      selectRowAux mat i ts = Except.ok out →
      ∀ x ∈ out, ∃ row ∈ mat, x ∈ row := by
  intro ts
  induction ts with
  | nil => intro i out h; cases h; intro x hx; cases hx
  | cons t ts ih =>
    intro i out h
    simp only [selectRowAux] at h
    cases hl : (mat.get? i).bind (fun row => row.get? t) with
    | none => rw [hl] at h; cases h
    | some x =>
      rw [hl] at h
      cases hr : selectRowAux mat (i + 1) ts with
      | error e => rw [hr] at h; cases h
      | ok l =>
        rw [hr] at h
        cases h
        intro y hy
        rcases List.mem_cons.mp hy with rfl | hy'
        · obtain ⟨row, hrow, hcell⟩ := Option.bind_eq_some.mp hl
          exact ⟨row, List.get?_mem hrow, List.get?_mem hcell⟩
        · exact ih hr y hy'

theorem selectRowAux_ok_getD {mat : Mat Nat} :
    ∀ {ts : List Nat} {i : Nat} {out : List Nat},
      selectRowAux mat i ts = Except.ok out →
      ∀ j, j < ts.length →
        out.getD j 0 = (mat.getD (i + j) []).getD (ts.getD j 0) 0 := by
  intro ts
  induction ts with
  | nil => intro i out _ j hj; cases hj
  | cons t ts ih =>
    intro i out h j hj
    simp only [selectRowAux] at h
    cases hl : (mat.get? i).bind (fun row => row.get? t) with
    | none => rw [hl] at h; cases h
    | some x =>
      rw [hl] at h
      cases hr : selectRowAux mat (i + 1) ts with
      | error e => rw [hr] at h; cases h
      | ok l =>
        rw [hr] at h
        cases h
        obtain ⟨row, hrow, hcell⟩ := Option.bind_eq_some.mp hl
        rw [List.get?_eq_getElem?] at hrow hcell
        obtain ⟨hrowlt, hrowval'⟩ := List.getElem?_eq_some_iff.mp hrow
        obtain ⟨hcelllt, hcellval'⟩ := List.getElem?_eq_some_iff.mp hcell
        have hrowval : mat.getD i [] = row := by
          rw [getD_eq_getElem_of_lt _ _ hrowlt]; exact hrowval'
        have hcellval : row.getD t 0 = x := by
          rw [getD_eq_getElem_of_lt _ _ hcelllt]; exact hcellval'
        cases j with
        | zero =>
          simp only [Nat.add_zero, List.getD_cons_zero]
          rw [hrowval, hcellval]
        | succ j =>
          have := ih hr j (Nat.lt_of_succ_lt_succ hj)
          simpa [Nat.add_assoc, Nat.add_comm 1 j, Nat.add_left_comm] using this

theorem selectRanks_ok_length :
    ∀ {t3 : T3 Nat} {ts : List Nat} {out : Mat Nat},
      selectRanks t3 ts = Except.ok out → out.length = t3.length := by
  intro t3
  induction t3 with
  | nil => intro ts out h; cases h; rfl
  | cons m ms ih =>
    intro ts out h
    simp only [selectRanks] at h
    cases h1 : selectRowAux m 0 ts with
    | error e => rw [h1] at h; cases h
    | ok r =>
      rw [h1] at h
      cases h2 : selectRanks ms ts with
      | error e => rw [h2] at h; cases h
      | ok rs =>
        rw [h2] at h
        cases h
        simp [ih h2]

theorem selectRanks_ok_of_bounds :
    ∀ {t3 : T3 Nat} {ts : List Nat},
      (∀ m ∈ t3, ∀ j, (hj : j < ts.length) →
        j < m.length ∧ ts.getD j 0 < (m.getD j []).length) →
      ∃ out, selectRanks t3 ts = Except.ok out := by
  intro t3
  induction t3 with
  | nil => intro ts _; exact ⟨[], rfl⟩
  | cons m ms ih =>
    intro ts hb
    obtain ⟨r, hr⟩ := @selectRowAux_ok_of_bounds m ts 0
      (fun j hj => by simpa using hb m (List.mem_cons_self m ms) j hj)
    obtain ⟨rs, hrs⟩ := ih (fun m' hm' => hb m' (List.mem_cons_of_mem m hm'))
    exact ⟨r :: rs, by simp only [selectRanks, hr, hrs]⟩

theorem selectRanks_ok_rows :
    ∀ {t3 : T3 Nat} {ts : List Nat} {out : Mat Nat},
      selectRanks t3 ts = Except.ok out →
      ∀ row ∈ out, row.length = ts.length ∧ ∃ m ∈ t3, ∀ x ∈ row, ∃ r ∈ m, x ∈ r := by
  intro t3
  induction t3 with
  | nil => intro ts out h; cases h; intro row hrow; cases hrow
  | cons m ms ih =>
    intro ts out h
    simp only [selectRanks] at h
    cases h1 : selectRowAux m 0 ts with
    | error e => rw [h1] at h; cases h
    | ok r =>
      rw [h1] at h
      cases h2 : selectRanks ms ts with
      | error e => rw [h2] at h; cases h
      | ok rs =>
        rw [h2] at h
        cases h
        intro row hrow
        rcases List.mem_cons.mp hrow with rfl | hrow'
        · exact ⟨selectRowAux_ok_length h1, m, by simp,
            fun x hx => selectRowAux_mem h1 x hx⟩
        · obtain ⟨hlen, m', hm', hmem⟩ := ih h2 row hrow'
          exact ⟨hlen, m', by simp [hm'], hmem⟩

theorem selectRanks_ok_getD :
    ∀ {t3 : T3 Nat} {ts : List Nat} {out : Mat Nat},
      selectRanks t3 ts = Except.ok out →
      ∀ l, l < t3.length →
        selectRowAux (t3.getD l []) 0 ts = Except.ok (out.getD l []) := by
  intro t3
  induction t3 with
  | nil => intro ts out _ l hl; cases hl
  | cons m ms ih =>
    intro ts out h l hl
    simp only [selectRanks] at h
    cases h1 : selectRowAux m 0 ts with
    | error e => rw [h1] at h; cases h
    | ok r =>
      rw [h1] at h
      cases h2 : selectRanks ms ts with
      | error e => rw [h2] at h; cases h
      | ok rs =>
        rw [h2] at h
        cases h
        cases l with
        | zero => simpa using h1
        | succ l => simpa using ih h2 l (Nat.lt_of_succ_lt_succ hl)

/-! ## Unfolding lemmas for the main function -/

theorem getLastD_eq_getElem_of_ne {β : Type} (l : List β) (d : β) (h : 0 < l.length) :
    l.getLastD d = l[l.length - 1] := by
  rw [List.getLastD_eq_getLast?, List.getLast?_eq_getElem?,
    List.getElem?_eq_getElem (by omega)]
  rfl

theorem generate_logit_lense_ok {α : Type} [LinearOrderedCommRing α]
    {M : HookedModel α} {expf logf : α → α} {encode : String → List Nat}
    {sentence : String} {rks kld ii : Bool}
    {lg : T3 α} {r : Option (Mat Nat)} {k : Option (Mat α)}
    (h : (generate_logit_lense M expf logf encode sentence rks kld ii).fst
        = Except.ok (lg, r, k)) :
    M.numLayers ≠ 0 ∧ kld = true ∧
    lg = sliceOffLast ((List.range M.numLayers).map (M.run (encode sentence))) ∧
    k = some (sliceOffLast (klCompute expf logf
        ((List.range M.numLayers).map (M.run (encode sentence))))) ∧
    ((rks = false ∧ r = none) ∨
      (rks = true ∧ ∃ rr,
        selectRanks (((List.range M.numLayers).map (M.run (encode sentence))).map
          (fun m => m.map ranksOf)) ((encode sentence).drop 1) = Except.ok rr ∧
        r = some rr)) := by
  by_cases h0 : M.numLayers = 0
  · simp [generate_logit_lense, h0] at h
  · simp only [generate_logit_lense, if_neg h0] at h
    cases rks with
    | false =>
      simp only [Bool.false_eq_true, if_false] at h
      cases kld with
      | false => simp at h
      | true =>
        simp only [if_true] at h
        injection h with h
        obtain ⟨h1, h2, h3⟩ := Prod.mk.injEq .. ▸ h
        refine ⟨h0, rfl, ?_, ?_, Or.inl ⟨rfl, ?_⟩⟩ <;> simp_all
    | true =>
      simp only [if_true] at h
      cases hsel : selectRanks (((List.range M.numLayers).map
          (M.run (encode sentence))).map (fun m => m.map ranksOf))
          ((encode sentence).drop 1) with
      | error e => rw [hsel] at h; simp [Except.map] at h
      | ok rr =>
        rw [hsel] at h
        cases kld with
        | false => simp [Except.map] at h
        | true =>
          simp only [Except.map, if_true] at h
          injection h with h
          obtain ⟨h1, h2, h3⟩ := Prod.mk.injEq .. ▸ h
          refine ⟨h0, rfl, ?_, ?_, Or.inr ⟨rfl, rr, rfl, ?_⟩⟩ <;> simp_all

theorem generate_logit_lense_eq_ok {α : Type} [LinearOrderedCommRing α]
    {M : HookedModel α} (expf logf : α → α) (encode : String → List Nat)
    (sentence : String) (ii : Bool) {rr : Mat Nat}
    (h0 : M.numLayers ≠ 0)
    (hsel : selectRanks (((List.range M.numLayers).map
        (M.run (encode sentence))).map (fun m => m.map ranksOf))
        ((encode sentence).drop 1) = Except.ok rr) :
    (generate_logit_lense M expf logf encode sentence true true ii).fst
      = Except.ok
        (sliceOffLast ((List.range M.numLayers).map (M.run (encode sentence))),
         some rr,
         some (sliceOffLast (klCompute expf logf
           ((List.range M.numLayers).map (M.run (encode sentence)))))) := by
  have hsel' : selectRanks ((List.range M.numLayers).map
      ((fun m => List.map ranksOf m) ∘ M.run (encode sentence)))
      (encode sentence).tail = Except.ok rr := by
    simpa [List.map_map, List.drop_one] using hsel
  simp [generate_logit_lense, if_neg h0, hsel', Except.map]

theorem klCompute_length {α : Type} [LinearOrderedCommRing α]
    (expf logf : α → α) (logits : T3 α) :
    (klCompute expf logf logits).length = logits.length := by
  simp [klCompute]

theorem klCompute_row_length_le {α : Type} [LinearOrderedCommRing α]
    (expf logf : α → α) {logits : T3 α} {L : Nat}
    (hlen : ∀ m ∈ logits, m.length = L) :
    ∀ row ∈ klCompute expf logf logits, row.length ≤ L := by
  intro row hrow
  simp only [klCompute, List.mem_map] at hrow
  obtain ⟨lp, hlp, rfl⟩ := hrow
  obtain ⟨mat, hmat, rfl⟩ := hlp
  have : (mat.map (logSoftmaxVec expf logf)).length = L := by
    simp [hlen mat hmat]
  rw [List.length_zipWith, this]
  omega

theorem klCompute_row_length {α : Type} [LinearOrderedCommRing α]
    (expf logf : α → α) {logits : T3 α} {L : Nat} (h0 : logits ≠ [])
    (hlen : ∀ m ∈ logits, m.length = L) :
    ∀ row ∈ klCompute expf logf logits, row.length = L := by
  intro row hrow
  simp only [klCompute, List.mem_map] at hrow
  obtain ⟨lp, hlp, rfl⟩ := hrow
  obtain ⟨mat, hmat, rfl⟩ := hlp
  have hpos : 0 < (logits.map (fun m => m.map (logSoftmaxVec expf logf))).length := by
    simp [List.length_pos, h0]
  have hlp : logits.length - 1 < logits.length := by
    simp only [List.length_map] at hpos
    omega
  have hfin : (logits.map (fun m => m.map (logSoftmaxVec expf logf))).getLastD []
      = (logits.map (fun m => m.map (logSoftmaxVec expf logf)))[
        (logits.map (fun m => m.map (logSoftmaxVec expf logf))).length - 1] :=
    getLastD_eq_getElem_of_ne _ _ hpos
  have hfinlen : ((logits.map (fun m => m.map (logSoftmaxVec expf logf))).getLastD []).length
      = L := by
    rw [hfin, List.getElem_map]
    have hmem : logits[logits.length - 1] ∈ logits := List.getElem_mem hlp
    simp [hlen _ hmem]
  rw [List.length_zipWith, hfinlen]
  simp [hlen mat hmat]

/-! ## Characterisation of the double-argsort rank computation -/

theorem descRel_antisymm {α : Type} [LinearOrder α] :
    ∀ a b : Nat × α, descRel a b → descRel b a → a = b := by
  intro a b hab hba
  rcases hab with h1 | ⟨h1, h2⟩ <;> rcases hba with h3 | ⟨h3, h4⟩
  · exact absurd (h1.trans h3) (lt_irrefl _)
  · rw [h3] at h1
    exact absurd h1 (lt_irrefl _)
  · rw [h1] at h3
    exact absurd h3 (lt_irrefl _)
  · exact Prod.ext (Nat.le_antisymm h2 h4) h1

theorem ascRel_antisymm : ∀ a b : Nat × Nat, ascRel a b → ascRel b a → a = b := by
  intro a b hab hba
  simp only [ascRel] at hab hba
  have h1 : a.1 = b.1 := by omega
  have h2 : a.2 = b.2 := by omega
  exact Prod.ext h1 h2

theorem countP_sorted_pos {β : Type} [DecidableEq β] {r : β → β → Prop}
    [DecidableRel r] (hanti : ∀ a b, r a b → r b a → a = b)
    (s₁ s₂ : List β) (b : β)
    (hs : List.Sorted r (s₁ ++ b :: s₂))
    (hn : (s₁ ++ b :: s₂).Nodup) :
    (s₁ ++ b :: s₂).countP (fun a => decide (r a b) && !(decide (a = b)))
      = s₁.length := by
  rw [List.countP_append, List.countP_cons]
  have hdisj : List.Disjoint s₁ (b :: s₂) := List.disjoint_of_nodup_append hn
  obtain ⟨-, hs2, h12⟩ := List.pairwise_append.mp hs
  have hleft : s₁.countP (fun a => decide (r a b) && !(decide (a = b)))
      = s₁.length := by
    rw [List.countP_eq_length]
    intro a ha
    have hab : r a b := h12 a ha b (List.mem_cons_self b s₂)
    have hne : a ≠ b := fun he => hdisj ha (he ▸ List.mem_cons_self b s₂)
    simp [hab, hne]
  have hright : s₂.countP (fun a => decide (r a b) && !(decide (a = b))) = 0 := by
    rw [List.countP_eq_zero]
    intro a ha
    simp only [Bool.and_eq_true, decide_eq_true_eq, Bool.not_eq_true',
      decide_eq_false_iff_not, not_and]
    intro hab
    have hba : r b a := List.rel_of_sorted_cons hs2 a ha
    have : a = b := hanti a b hab hba
    simp [this]
  rw [hleft, hright]
  simp

theorem insertionSort_index {β : Type} [DecidableEq β] (r : β → β → Prop)
    [DecidableRel r] [IsTrans β r] [IsTotal β r]
    (hanti : ∀ a b, r a b → r b a → a = b)
    {L : List β} (hn : L.Nodup) {b : β} (hb : b ∈ L) :
    (L.insertionSort r)[L.countP
        (fun a => decide (r a b) && !(decide (a = b)))]? = some b ∧
    L.countP (fun a => decide (r a b) && !(decide (a = b))) < L.length := by
  have hperm : List.Perm (L.insertionSort r) L := List.perm_insertionSort r L
  have hsort : List.Sorted r (L.insertionSort r) := List.sorted_insertionSort r L
  have hns : (L.insertionSort r).Nodup := hperm.nodup_iff.mpr hn
  have hbs : b ∈ L.insertionSort r := hperm.mem_iff.mpr hb
  obtain ⟨s₁, s₂, hdec⟩ := List.append_of_mem hbs
  have hcnt : L.countP (fun a => decide (r a b) && !(decide (a = b)))
      = s₁.length := by
    rw [← hperm.countP_eq]
    exact hdec ▸ countP_sorted_pos hanti s₁ s₂ b (hdec ▸ hsort) (hdec ▸ hns)
  have hlen : (L.insertionSort r).length = L.length := List.length_insertionSort r L
  rw [hdec] at hlen
  simp only [List.length_append, List.length_cons] at hlen
  constructor
  · rw [hcnt, hdec, List.getElem?_append_right (le_refl s₁.length)]
    simp
  · omega

theorem countP_range_lt {t n : Nat} (h : t ≤ n) :
    (List.range n).countP (fun j => decide (j < t)) = t := by
  induction n with
  | zero =>
    have ht : t = 0 := Nat.le_zero.mp h
    simp [ht]
  | succ n ih =>
    rw [List.range_succ, List.countP_append]
    by_cases h' : t ≤ n
    · rw [ih h']
      simp [Nat.not_lt.mpr h']
    · have ht : t = n + 1 := by omega
      subst ht
      have hfull : (List.range n).countP (fun j => decide (j < n + 1))
          = n := by
        rw [List.countP_eq_length.mpr, List.length_range]
        intro a ha
        simp only [List.mem_range] at ha
        simp
        omega
      rw [hfull]
      simp

theorem enum_map_fst_eq {β : Type} (l : List β) :
    l.enum.map Prod.fst = List.range l.length := by
  rw [List.enum_eq_enumFrom, List.enumFrom_map_fst, ← List.range_eq_range']

theorem enum_map_snd_eq {β : Type} (l : List β) :
    l.enum.map Prod.snd = l := by
  rw [List.enum_eq_enumFrom]
  exact List.enumFrom_map_snd 0 l

theorem enum_nodup {β : Type} (l : List β) : l.enum.Nodup := by
  have h := List.nodup_range l.length
  rw [← enum_map_fst_eq l] at h
  exact List.Nodup.of_map _ h

theorem mem_enum_pair {β : Type} {l : List β} {t : Nat} (ht : t < l.length) :
    (t, l[t]) ∈ l.enum := by
  rw [List.mk_mem_enum_iff_getElem?]
  exact List.getElem?_eq_getElem ht

theorem argsortDesc_perm {α : Type} [LinearOrder α] (v : List α) :
    List.Perm (argsortDesc v) (List.range v.length) := by
  have h := (List.perm_insertionSort descRel v.enum).map Prod.fst
  rw [enum_map_fst_eq] at h
  exact h

theorem argsortDesc_getElem? {α : Type} [LinearOrder α] (v : List α) {t : Nat}
    (ht : t < v.length) :
    (argsortDesc v)[v.enum.countP (fun a =>
        decide (descRel a (t, v[t])) && !(decide (a = (t, v[t]))))]? = some t ∧
    v.enum.countP (fun a =>
        decide (descRel a (t, v[t])) && !(decide (a = (t, v[t])))) < v.length := by
  obtain ⟨h1, h2⟩ := insertionSort_index descRel descRel_antisymm
    (enum_nodup v) (mem_enum_pair ht)
  constructor
  · rw [argsortDesc, List.getElem?_map, h1]
    rfl
  · simpa using h2

theorem argsortAsc_getElem? {p : List Nat} (hp : List.Perm p (List.range p.length))
    {e : Nat} (he : e < p.length) :
    (argsortAsc p)[p[e]]? = some e := by
  have hnp : p.Nodup := hp.nodup_iff.mpr (List.nodup_range _)
  obtain ⟨h1, -⟩ := insertionSort_index ascRel ascRel_antisymm
    (enum_nodup p) (mem_enum_pair he)
  have hstep : p.enum.countP (fun a =>
      decide (ascRel a (e, p[e])) && !(decide (a = (e, p[e]))))
      = p.enum.countP (fun a => decide (a.2 < p[e])) := by
    apply List.countP_congr
    intro a ha
    obtain ⟨i, x⟩ := a
    have hx : p[i]? = some x := List.mk_mem_enum_iff_getElem?.mp ha
    obtain ⟨hi, hx'⟩ := List.getElem?_eq_some_iff.mp hx
    subst hx'
    simp only [Bool.and_eq_true, decide_eq_true_eq, Bool.not_eq_true',
      decide_eq_false_iff_not, ascRel]
    constructor
    · rintro ⟨hlt | ⟨heq, -⟩, hne⟩
      · exact hlt
      · exfalso
        have hie : i = e := (hnp.getElem_inj_iff).mp heq
        subst hie
        exact hne rfl
    · intro hlt
      refine ⟨Or.inl hlt, fun hpair => ?_⟩
      have : p[i] = p[e] := congrArg Prod.snd hpair
      rw [this] at hlt
      exact lt_irrefl _ hlt
  have hsnd : ∀ c : Nat, p.enum.countP (fun a => decide (a.2 < c))
      = p.countP (fun x => decide (x < c)) := by
    intro c
    conv_rhs => rw [← enum_map_snd_eq p]
    rw [List.countP_map]
    rfl
  have hpe : p[e] < p.length := by
    have hmem : p[e] ∈ List.range p.length := hp.subset (List.getElem_mem he)
    simpa using hmem
  have hcnt : p.enum.countP (fun a =>
      decide (ascRel a (e, p[e])) && !(decide (a = (e, p[e])))) = p[e] := by
    rw [hstep, hsnd (p[e]), hp.countP_eq]
    exact countP_range_lt (Nat.le_of_lt hpe)
  rw [argsortAsc, List.getElem?_map, ← hcnt, h1]
  rfl

theorem ranksOf_getElem? {α : Type} [LinearOrder α] (v : List α) {t : Nat}
    (ht : t < v.length) :
    (ranksOf v)[t]? = some (1 + v.enum.countP (fun a =>
      decide (descRel a (t, v[t])) && !(decide (a = (t, v[t]))))) := by
  obtain ⟨h1, -⟩ := argsortDesc_getElem? v ht
  obtain ⟨hcl, hct⟩ := List.getElem?_eq_some_iff.mp h1
  have hperm : List.Perm (argsortDesc v) (List.range (argsortDesc v).length) := by
    rw [length_argsortDesc]
    exact argsortDesc_perm v
  have h2 := argsortAsc_getElem? hperm hcl
  rw [hct] at h2
  rw [ranksOf, List.getElem?_map, h2]
  simp [Nat.add_comm]

theorem selectRowAux_ok_bounds {mat : Mat Nat} :
    ∀ {ts : List Nat} {i : Nat} {out : List Nat},
      selectRowAux mat i ts = Except.ok out →
      ∀ j, j < ts.length →
        i + j < mat.length ∧ ts.getD j 0 < (mat.getD (i + j) []).length := by
  intro ts
  induction ts with
  | nil => intro i out _ j hj; cases hj
  | cons t ts ih =>
    intro i out h j hj
    simp only [selectRowAux] at h
    cases hl : (mat.get? i).bind (fun row => row.get? t) with
    | none => rw [hl] at h; cases h
    | some x =>
      rw [hl] at h
      cases hr : selectRowAux mat (i + 1) ts with
      | error e => rw [hr] at h; cases h
      | ok l =>
        rw [hr] at h
        cases h
        obtain ⟨row, hrow, hcell⟩ := Option.bind_eq_some.mp hl
        rw [List.get?_eq_getElem?] at hrow hcell
        obtain ⟨hrowlt, hrowval'⟩ := List.getElem?_eq_some_iff.mp hrow
        obtain ⟨hcelllt, hcellval'⟩ := List.getElem?_eq_some_iff.mp hcell
        cases j with
        | zero =>
          refine ⟨by omega, ?_⟩
          simp only [Nat.add_zero, List.getD_cons_zero]
          rw [getD_eq_getElem_of_lt _ _ hrowlt, hrowval']
          exact hcelllt
        | succ j =>
          have := ih hr j (Nat.lt_of_succ_lt_succ hj)
          constructor
          · omega
          · have harith : i + 1 + j = i + (j + 1) := by omega
            rw [harith] at this
            simpa using this.2

theorem countP_enum_snd {β : Type} (l : List β) (q : β → Bool) :
    l.enum.countP (fun a => q a.2) = l.countP q := by
  conv_rhs => rw [← enum_map_snd_eq l]
  rw [List.countP_map]
  rfl

theorem klPointwiseRow_self {α : Type} [LinearOrderedCommRing α]
    (expf : α → α) (w : List α) : klPointwiseRow expf w w = 0 := by
  rw [klPointwiseRow, List.zipWith_same]
  exact List.sum_eq_zero (by simp)

theorem klCompute_getElem {α : Type} [LinearOrderedCommRing α] (expf logf : α → α)
    (logits : T3 α) (l : Nat) (hl : l < logits.length)
    (hkc : l < (klCompute expf logf logits).length) :
    (klCompute expf logf logits)[l]
      = List.zipWith (klPointwiseRow expf)
          ((logits[logits.length - 1]).map (logSoftmaxVec expf logf))
          ((logits[l]).map (logSoftmaxVec expf logf)) := by
  have hne : logits ≠ [] := by
    intro hnil
    rw [hnil] at hl
    cases hl
  simp only [klCompute, List.getElem_map]
  congr 1
  rw [getLastD_eq_getElem_of_ne _ _ (by simpa [List.length_pos] using hne)]
  simp [List.getElem_map]

theorem logits_shape_helper {α : Type} [LinearOrderedCommRing α]
    {M : HookedModel α} {toks : List Nat} {vocab : Nat}
    (hwf : WellFormed M toks vocab) :
    (sliceOffLast ((List.range M.numLayers).map (M.run toks))).length
      = M.numLayers ∧
    ∀ m ∈ sliceOffLast ((List.range M.numLayers).map (M.run toks)),
      m.length = toks.length - 1 ∧ ∀ row ∈ m, row.length = vocab := by
  constructor
  · simp [sliceOffLast]
  · intro m hm
    simp only [sliceOffLast, List.mem_map] at hm
    obtain ⟨mat, hmat, rfl⟩ := hm
    obtain ⟨l, hl, rfl⟩ := hmat
    have hl' : l < M.numLayers := List.mem_range.mp hl
    obtain ⟨hrows, hcols⟩ := hwf l hl'
    exact ⟨by simp [List.length_dropLast, hrows],
      fun row hrow => hcols row (List.dropLast_subset _ hrow)⟩

theorem kl_shape_helper {α : Type} [LinearOrderedCommRing α]
    (expf logf : α → α) {M : HookedModel α} {toks : List Nat} {vocab : Nat}
    (h0 : M.numLayers ≠ 0) (hwf : WellFormed M toks vocab) :
    (sliceOffLast (klCompute expf logf
        ((List.range M.numLayers).map (M.run toks)))).length = M.numLayers ∧
    ∀ row ∈ sliceOffLast (klCompute expf logf
        ((List.range M.numLayers).map (M.run toks))),
      row.length = toks.length - 1 := by
  have hne : (List.range M.numLayers).map (M.run toks) ≠ [] := by
    simp only [ne_eq, List.map_eq_nil_iff, List.range_eq_nil]
    omega
  have hlen : ∀ m ∈ (List.range M.numLayers).map (M.run toks),
      m.length = toks.length := by
    intro m hm
    obtain ⟨l, hl, rfl⟩ := List.mem_map.mp hm
    exact (hwf l (List.mem_range.mp hl)).1
  constructor
  · simp [sliceOffLast, klCompute_length]
  · intro row hrow
    simp only [sliceOffLast, List.mem_map] at hrow
    obtain ⟨row0, hrow0, rfl⟩ := hrow
    rw [List.length_dropLast, klCompute_row_length expf logf hne hlen row0 hrow0]

theorem zipWith_map_left_zipWith {β γ ε : Type} (h : β → ε) (q : β → γ → ε)
    (mul : ε → ε → ε) :
    ∀ (u : List β) (v : List γ),
      List.zipWith mul (u.map h) (List.zipWith q u v)
        = List.zipWith (fun a b => mul (h a) (q a b)) u v
  | [], _ => rfl
  | _ :: _, [] => rfl
  | a :: u, b :: v => by
    simp only [List.map_cons, List.zipWith_cons_cons]
    rw [zipWith_map_left_zipWith h q mul u v]

theorem klPointwiseRow_eq_klDirSpec (wF wL : List ℝ) :
    klPointwiseRow Real.exp (logSoftmaxVec Real.exp Real.log wF)
        (logSoftmaxVec Real.exp Real.log wL)
      = klDirSpec wF wL := by
  rcases eq_or_ne wF [] with rfl | hne
  · simp [klPointwiseRow, klDirSpec, logSoftmaxVec, softmaxSpec]
  · have hS : 0 < (wF.map Real.exp).sum := by
      apply List.sum_pos
      · intro x hx
        obtain ⟨a, -, rfl⟩ := List.mem_map.mp hx
        exact Real.exp_pos a
      · simpa using hne
    simp only [klPointwiseRow, klDirSpec, softmaxSpec, logSoftmaxVec]
    rw [List.zipWith_map, List.zipWith_map, zipWith_map_left_zipWith]
    have hfun : (fun (a b : ℝ) =>
        Real.exp (a - Real.log ((wF.map Real.exp).sum)) *
          (a - Real.log ((wF.map Real.exp).sum)
            - (b - Real.log ((wL.map Real.exp).sum))))
        = (fun (a b : ℝ) =>
          Real.exp a / ((wF.map Real.exp).sum) *
            (a - Real.log ((wF.map Real.exp).sum)
              - (b - Real.log ((wL.map Real.exp).sum)))) := by
      funext a b
      rw [Real.exp_sub, Real.exp_log hS]
    rw [hfun]

/-! ## Claim theorems -/

/-- C1: the claim says a call with `kl_div=False` returns `None` as the third
element and completes without error.  In the code the final line
`return logits[:,:-1], ranks, kl_div[:,:-1]` subscripts `kl_div` even when it
is `None`, so every call with `kl_div=False` raises a `TypeError` instead of
returning; this theorem evaluates the embedded code on that path (the
`ranks=False` part of the claim does hold on the branch, but the call still
raises before returning). -/
theorem C1_kl_div_false_raises {α : Type} [LinearOrderedCommRing α]
    (M : HookedModel α) (expf logf : α → α) (encode : String → List Nat)
    (sentence : String) (ii : Bool) (h0 : M.numLayers ≠ 0) :
    (generate_logit_lense M expf logf encode sentence false false ii).fst
      = Except.error "TypeError: NoneType object is not subscriptable" := by
  simp [generate_logit_lense, if_neg h0]

/-- Witness for C1: a concrete one-layer model and sentence on which the
default-flag call raises. -/
theorem C1_kl_div_false_raises_witness :
    (generate_logit_lense (constModel Int 1 [[0, 1], [2, 3]]) id id
        (constEnc [0, 1]) "a sentence" false false false).fst
      = Except.error "TypeError: NoneType object is not subscriptable" :=
  C1_kl_div_false_raises _ _ _ _ _ _ (by decide)

/-- C6: `include_input=True` produces the identical returned value (or raised
error) as `include_input=False`, and its only effect is the emission of
exactly the one warning line; with `include_input=False` no warning is
emitted. -/
theorem C6_include_input_only_warns {α : Type} [LinearOrderedCommRing α]
    (M : HookedModel α) (expf logf : α → α) (encode : String → List Nat)
    (sentence : String) (rks kld : Bool) :
    (generate_logit_lense M expf logf encode sentence rks kld true).fst
      = (generate_logit_lense M expf logf encode sentence rks kld false).fst ∧
    (generate_logit_lense M expf logf encode sentence rks kld true).snd
      = ["include_input is not implemented yet"] ∧
    (generate_logit_lense M expf logf encode sentence rks kld false).snd = [] :=
  ⟨rfl, rfl, rfl⟩

/-- C8: determinism.  The embedded function is a pure function of the model,
the exp/log arithmetic, the tokenizer and the flags: two calls with equal
inputs return equal triples and equal logs bit for bit. -/
theorem C8_deterministic {α : Type} [LinearOrderedCommRing α]
    (M M' : HookedModel α) (expf expf' logf logf' : α → α)
    (encode encode' : String → List Nat) (sentence sentence' : String)
    (rks rks' kld kld' ii ii' : Bool)
    (hM : M = M') (he : expf = expf') (hl : logf = logf')
    (hc : encode = encode') (hs : sentence = sentence')
    (hr : rks = rks') (hk : kld = kld') (hi : ii = ii') :
    generate_logit_lense M expf logf encode sentence rks kld ii
      = generate_logit_lense M' expf' logf' encode' sentence' rks' kld' ii' := by
  subst hM he hl hc hs hr hk hi
  rfl

/-- Witness for C8 at a concrete model, tokenizer and sentence. -/
theorem C8_deterministic_witness :
    generate_logit_lense (constModel Int 2 [[1, 7, 2], [0, 3, 5]]) id id
        (constEnc [0, 2]) "s" true true false
      = generate_logit_lense (constModel Int 2 [[1, 7, 2], [0, 3, 5]]) id id
        (constEnc [0, 2]) "s" true true false :=
  C8_deterministic _ _ _ _ _ _ _ _ _ _ _ _ _ _ _ _
    rfl rfl rfl rfl rfl rfl rfl rfl

/-- C4: whenever a call on a sentence of tokenized length `L ≥ 2` returns a
triple, its first component has shape `[num_layers, L-1, vocab_size]`: one
matrix per model layer, each with `L-1` position rows of `vocab_size`
logits. -/
theorem C4_logits_shape {α : Type} [LinearOrderedCommRing α]
    {M : HookedModel α} {expf logf : α → α} {encode : String → List Nat}
    {sentence : String} {rks kld ii : Bool} {vocab : Nat}
    {lg : T3 α} {r : Option (Mat Nat)} {k : Option (Mat α)}
    (hlen : 2 ≤ (encode sentence).length)
    (hwf : WellFormed M (encode sentence) vocab)
    (h : (generate_logit_lense M expf logf encode sentence rks kld ii).fst
        = Except.ok (lg, r, k)) :
    lg.length = M.numLayers ∧
    ∀ m ∈ lg, m.length = (encode sentence).length - 1 ∧
      ∀ row ∈ m, row.length = vocab := by
  obtain ⟨h0, -, rfl, -, -⟩ := generate_logit_lense_ok h
  constructor
  · simp [sliceOffLast]
  · intro m hm
    simp only [sliceOffLast, List.mem_map] at hm
    obtain ⟨mat, hmat, rfl⟩ := hm
    obtain ⟨l, hl, rfl⟩ := hmat
    have hl' : l < M.numLayers := List.mem_range.mp hl
    obtain ⟨hrows, hcols⟩ := hwf l hl'
    constructor
    · simp [List.length_dropLast, hrows]
    · intro row hrow
      exact hcols row (List.dropLast_subset _ hrow)

/-- Witness for C4: a concrete two-layer model over a two-token sentence with
vocabulary size 3; the call returns and the shape facts hold. -/
theorem C4_logits_shape_witness :
    2 ≤ (constEnc [0, 2] "s").length ∧
    WellFormed (constModel Int 2 [[1, 7, 2], [0, 3, 5]]) (constEnc [0, 2] "s") 3 ∧
    ∃ lg r k,
      (generate_logit_lense (constModel Int 2 [[1, 7, 2], [0, 3, 5]]) id id
          (constEnc [0, 2]) "s" true true false).fst = Except.ok (lg, r, k) ∧
      lg.length = (constModel Int 2 [[1, 7, 2], [0, 3, 5]]).numLayers ∧
      ∀ m ∈ lg, m.length = (constEnc [0, 2] "s").length - 1 ∧
        ∀ row ∈ m, row.length = 3 := by
  have hwf : WellFormed (constModel Int 2 [[1, 7, 2], [0, 3, 5]])
      (constEnc [0, 2] "s") 3 := by
    intro l _
    refine ⟨rfl, ?_⟩
    show ∀ row ∈ ([[1, 7, 2], [0, 3, 5]] : Mat Int), row.length = 3
    decide
  have hok : (generate_logit_lense (constModel Int 2 [[1, 7, 2], [0, 3, 5]]) id id
      (constEnc [0, 2]) "s" true true false).fst
      = Except.ok ([[[1, 7, 2]], [[1, 7, 2]]], some [[2], [2]], some [[0], [0]]) := by
    rfl
  exact ⟨by decide, hwf, _, _, _, hok, C4_logits_shape (by decide) hwf hok⟩

/-- C10: a single-token sentence (empty target list) still succeeds when both
optional outputs are requested, and all three outputs have zero positions:
every layer slice of the logits, the ranks and the KL output is the empty
list. -/
theorem C10_single_token {α : Type} [LinearOrderedCommRing α]
    {M : HookedModel α} (expf logf : α → α) (encode : String → List Nat)
    (sentence : String) (ii : Bool) {vocab : Nat}
    (h0 : M.numLayers ≠ 0)
    (hlen : (encode sentence).length = 1)
    (hwf : WellFormed M (encode sentence) vocab) :
    ∃ lg rk kl,
      (generate_logit_lense M expf logf encode sentence true true ii).fst
        = Except.ok (lg, some rk, some kl) ∧
      lg.length = M.numLayers ∧ (∀ m ∈ lg, m = []) ∧
      rk.length = M.numLayers ∧ (∀ row ∈ rk, row = []) ∧
      kl.length = M.numLayers ∧ (∀ row ∈ kl, row = []) := by
  have htg : (encode sentence).drop 1 = [] := by
    apply List.eq_nil_of_length_eq_zero
    simp [hlen]
  obtain ⟨rr, hsel⟩ := @selectRanks_ok_of_bounds
    (((List.range M.numLayers).map (M.run (encode sentence))).map
      (fun m => m.map ranksOf))
    ((encode sentence).drop 1)
    (by rw [htg]; intro m _ j hj; cases hj)
  refine ⟨_, rr, _, generate_logit_lense_eq_ok expf logf encode sentence ii h0 hsel,
    ?_, ?_, ?_, ?_, ?_, ?_⟩
  · simp [sliceOffLast]
  · intro m hm
    simp only [sliceOffLast, List.mem_map] at hm
    obtain ⟨mat, hmat, rfl⟩ := hm
    obtain ⟨l, hl, rfl⟩ := hmat
    have hl' : l < M.numLayers := List.mem_range.mp hl
    apply List.eq_nil_of_length_eq_zero
    simp [List.length_dropLast, (hwf l hl').1, hlen]
  · rw [selectRanks_ok_length hsel]
    simp
  · intro row hrow
    obtain ⟨hrl, -⟩ := selectRanks_ok_rows hsel row hrow
    apply List.eq_nil_of_length_eq_zero
    rw [hrl, htg]
    rfl
  · simp [sliceOffLast, klCompute_length]
  · intro row hrow
    simp only [sliceOffLast, List.mem_map] at hrow
    obtain ⟨row0, hrow0, rfl⟩ := hrow
    have hrle := @klCompute_row_length_le α _ expf logf
      ((List.range M.numLayers).map (M.run (encode sentence))) 1
      (by
        intro m hm
        obtain ⟨l, hl, rfl⟩ := List.mem_map.mp hm
        rw [(hwf l (List.mem_range.mp hl)).1, hlen])
      row0 hrow0
    apply List.eq_nil_of_length_eq_zero
    rw [List.length_dropLast]
    omega

/-- C2: with `ranks=True` and `kl_div=True` on a sentence of tokenized length
`L ≥ 2`, the call succeeds and all three outputs have the same position count
`L-1`: logits is `[num_layers, L-1, vocab_size]`, ranks is
`[num_layers, L-1]` and kl_div is `[num_layers, L-1]`, even though logits and
kl are trimmed by the trailing slice while ranks is trimmed by selection
against the `L-1` targets. -/
theorem C2_consistent_truncation {α : Type} [LinearOrderedCommRing α]
    {M : HookedModel α} (expf logf : α → α) (encode : String → List Nat)
    (sentence : String) (ii : Bool) {vocab : Nat}
    (h0 : M.numLayers ≠ 0)
    (hlen : 2 ≤ (encode sentence).length)
    (hwf : WellFormed M (encode sentence) vocab)
    (htg : ∀ t ∈ (encode sentence).drop 1, t < vocab) :
    ∃ lg rk kl,
      (generate_logit_lense M expf logf encode sentence true true ii).fst
        = Except.ok (lg, some rk, some kl) ∧
      lg.length = M.numLayers ∧
      (∀ m ∈ lg, m.length = (encode sentence).length - 1 ∧
        ∀ row ∈ m, row.length = vocab) ∧
      rk.length = M.numLayers ∧
      (∀ row ∈ rk, row.length = (encode sentence).length - 1) ∧
      kl.length = M.numLayers ∧
      (∀ row ∈ kl, row.length = (encode sentence).length - 1) := by
  have hb : ∀ m ∈ ((List.range M.numLayers).map (M.run (encode sentence))).map
      (fun m => m.map ranksOf), ∀ j, (hj : j < ((encode sentence).drop 1).length) →
      j < m.length ∧ ((encode sentence).drop 1).getD j 0 < (m.getD j []).length := by
    intro m hm j hj
    obtain ⟨mat, hmat, rfl⟩ := List.mem_map.mp hm
    obtain ⟨l, hl, rfl⟩ := List.mem_map.mp hmat
    obtain ⟨hrows, hcols⟩ := hwf l (List.mem_range.mp hl)
    have hjm : j < (M.run (encode sentence) l).length := by
      rw [hrows]
      simp only [List.length_drop] at hj
      omega
    constructor
    · simpa using hjm
    · have hgd : ((M.run (encode sentence) l).map ranksOf).getD j []
          = ranksOf ((M.run (encode sentence) l)[j]) := by
        rw [getD_eq_getElem_of_lt _ _ (by simpa using hjm), List.getElem_map]
      rw [hgd, length_ranksOf,
        hcols _ (List.getElem_mem hjm)]
      have : ((encode sentence).drop 1).getD j 0 ∈ (encode sentence).drop 1 := by
        rw [getD_eq_getElem_of_lt _ _ hj]
        exact List.getElem_mem hj
      exact htg _ this
  obtain ⟨rr, hsel⟩ := selectRanks_ok_of_bounds hb
  obtain ⟨hlg1, hlg2⟩ := logits_shape_helper hwf
  obtain ⟨hkl1, hkl2⟩ := kl_shape_helper expf logf h0 hwf
  refine ⟨_, rr, _, generate_logit_lense_eq_ok expf logf encode sentence ii h0 hsel,
    hlg1, hlg2, ?_, ?_, hkl1, hkl2⟩
  · rw [selectRanks_ok_length hsel]
    simp
  · intro row hrow
    obtain ⟨hrl, -⟩ := selectRanks_ok_rows hsel row hrow
    rw [hrl]
    simp

/-- Witness for C2: a concrete two-layer model, vocabulary size 3, sentence of
tokenized length 2; the call returns, and position counts agree. -/
theorem C2_consistent_truncation_witness :
    (constModel Int 2 [[1, 7, 2], [0, 3, 5]]).numLayers ≠ 0 ∧
    2 ≤ (constEnc [0, 2] "s").length ∧
    WellFormed (constModel Int 2 [[1, 7, 2], [0, 3, 5]]) (constEnc [0, 2] "s") 3 ∧
    (∀ t ∈ (constEnc [0, 2] "s").drop 1, t < 3) ∧
    ∃ lg rk kl,
      (generate_logit_lense (constModel Int 2 [[1, 7, 2], [0, 3, 5]]) id id
          (constEnc [0, 2]) "s" true true false).fst
        = Except.ok (lg, some rk, some kl) ∧
      lg.length = (constModel Int 2 [[1, 7, 2], [0, 3, 5]]).numLayers ∧
      (∀ m ∈ lg, m.length = (constEnc [0, 2] "s").length - 1 ∧
        ∀ row ∈ m, row.length = 3) ∧
      rk.length = (constModel Int 2 [[1, 7, 2], [0, 3, 5]]).numLayers ∧
      (∀ row ∈ rk, row.length = (constEnc [0, 2] "s").length - 1) ∧
      kl.length = (constModel Int 2 [[1, 7, 2], [0, 3, 5]]).numLayers ∧
      (∀ row ∈ kl, row.length = (constEnc [0, 2] "s").length - 1) := by
  have hwf : WellFormed (constModel Int 2 [[1, 7, 2], [0, 3, 5]])
      (constEnc [0, 2] "s") 3 := by
    intro l _
    refine ⟨rfl, ?_⟩
    show ∀ row ∈ ([[1, 7, 2], [0, 3, 5]] : Mat Int), row.length = 3
    decide
  exact ⟨by decide, by decide, hwf, by decide,
    C2_consistent_truncation id id (constEnc [0, 2]) "s" false
      (by decide) (by decide) hwf (by decide)⟩

/-- C7: every entry of the returned ranks array is at least 1 and at most the
vocabulary size. -/
theorem C7_rank_bounds {α : Type} [LinearOrderedCommRing α]
    {M : HookedModel α} {expf logf : α → α} {encode : String → List Nat}
    {sentence : String} {rks kld ii : Bool} {vocab : Nat}
    {lg : T3 α} {rk : Mat Nat} {k : Option (Mat α)}
    (hwf : WellFormed M (encode sentence) vocab)
    (h : (generate_logit_lense M expf logf encode sentence rks kld ii).fst
        = Except.ok (lg, some rk, k)) :
    ∀ row ∈ rk, ∀ x ∈ row, 1 ≤ x ∧ x ≤ vocab := by
  obtain ⟨-, -, -, -, hcase⟩ := generate_logit_lense_ok h
  rcases hcase with ⟨-, hnone⟩ | ⟨-, rr, hsel, hsome⟩
  · cases hnone
  · obtain rfl : rr = rk := by injection hsome with h'; exact h'.symm
    intro row hrow x hx
    obtain ⟨-, m, hm, hmem⟩ := selectRanks_ok_rows hsel row hrow
    obtain ⟨rvec, hrvec, hxr⟩ := hmem x hx
    obtain ⟨mat, hmat, rfl⟩ := List.mem_map.mp hm
    obtain ⟨l, hl, rfl⟩ := List.mem_map.mp hmat
    obtain ⟨w, hw, rfl⟩ := List.mem_map.mp hrvec
    have := mem_ranksOf hxr
    rw [(hwf l (List.mem_range.mp hl)).2 w hw] at this
    exact this

/-- Witness for C7 on a concrete two-layer model with vocabulary size 3. -/
theorem C7_rank_bounds_witness :
    WellFormed (constModel Int 2 [[1, 7, 2], [0, 3, 5]]) (constEnc [0, 2] "s") 3 ∧
    (generate_logit_lense (constModel Int 2 [[1, 7, 2], [0, 3, 5]]) id id
        (constEnc [0, 2]) "s" true true false).fst
      = Except.ok ([[[1, 7, 2]], [[1, 7, 2]]], some [[2], [2]], some [[0], [0]]) ∧
    ∀ row ∈ ([[2], [2]] : Mat Nat), ∀ x ∈ row, 1 ≤ x ∧ x ≤ 3 := by
  have hwf : WellFormed (constModel Int 2 [[1, 7, 2], [0, 3, 5]])
      (constEnc [0, 2] "s") 3 := by
    intro l _
    refine ⟨rfl, ?_⟩
    show ∀ row ∈ ([[1, 7, 2], [0, 3, 5]] : Mat Int), row.length = 3
    decide
  have hok : (generate_logit_lense (constModel Int 2 [[1, 7, 2], [0, 3, 5]]) id id
      (constEnc [0, 2]) "s" true true false).fst
      = Except.ok ([[[1, 7, 2]], [[1, 7, 2]]], some [[2], [2]], some [[0], [0]]) := by
    rfl
  exact ⟨hwf, hok, C7_rank_bounds hwf hok⟩

/-- C5: whenever the call returns a KL output, the final layer's row of that
output is identically 0: the KL divergence of the final layer's distribution
against itself vanishes at every returned position. -/
theorem C5_final_layer_kl_zero {α : Type} [LinearOrderedCommRing α]
    {M : HookedModel α} {expf logf : α → α} {encode : String → List Nat}
    {sentence : String} {rks kld ii : Bool}
    {lg : T3 α} {r : Option (Mat Nat)} {kl : Mat α}
    (h : (generate_logit_lense M expf logf encode sentence rks kld ii).fst
        = Except.ok (lg, r, some kl)) :
    ∀ x ∈ kl.getD (M.numLayers - 1) [], x = 0 := by
  obtain ⟨h0, -, -, hk, -⟩ := generate_logit_lense_ok h
  obtain rfl : kl = sliceOffLast (klCompute expf logf
      ((List.range M.numLayers).map (M.run (encode sentence)))) := by
    injection hk
  intro x hx
  have hn1 : M.numLayers - 1 < (sliceOffLast (klCompute expf logf
      ((List.range M.numLayers).map (M.run (encode sentence))))).length := by
    simp only [sliceOffLast, List.length_map, klCompute_length, List.length_range]
    omega
  rw [getD_eq_getElem_of_lt _ _ hn1] at hx
  simp only [sliceOffLast, List.getElem_map] at hx
  have hx' := List.dropLast_subset _ hx
  have hl : M.numLayers - 1
      < ((List.range M.numLayers).map (M.run (encode sentence))).length := by
    simp only [List.length_map, List.length_range]
    omega
  rw [klCompute_getElem expf logf _ _ hl (by rw [klCompute_length]; exact hl)] at hx'
  simp only [List.length_map, List.length_range] at hx'
  rw [List.zipWith_same] at hx'
  obtain ⟨w, hw, rfl⟩ := List.mem_map.mp hx'
  exact klPointwiseRow_self expf w

/-- Witness for C5: on a concrete two-layer integer model the KL output's
final-layer row is returned and is identically 0. -/
theorem C5_final_layer_kl_zero_witness :
    (generate_logit_lense (constModel Int 2 [[1, 7, 2], [0, 3, 5]]) id id
        (constEnc [0, 2]) "s" false true false).fst
      = Except.ok ([[[1, 7, 2]], [[1, 7, 2]]], none, some [[0], [0]]) ∧
    ∀ x ∈ ([[0], [0]] : Mat Int).getD
        ((constModel Int 2 [[1, 7, 2], [0, 3, 5]]).numLayers - 1) [], x = 0 := by
  have hok : (generate_logit_lense (constModel Int 2 [[1, 7, 2], [0, 3, 5]]) id id
      (constEnc [0, 2]) "s" false true false).fst
      = Except.ok ([[[1, 7, 2]], [[1, 7, 2]]], none, some [[0], [0]]) := by
    rfl
  exact ⟨hok, C5_final_layer_kl_zero hok⟩

/-- Witness for C10: a two-layer model on a single-token sentence returns, and
all three outputs have zero positions. -/
theorem C10_single_token_witness :
    (constModel Int 2 [[4, 1]]).numLayers ≠ 0 ∧
    (constEnc [0] "s").length = 1 ∧
    WellFormed (constModel Int 2 [[4, 1]]) (constEnc [0] "s") 2 ∧
    ∃ lg rk kl,
      (generate_logit_lense (constModel Int 2 [[4, 1]]) id id
          (constEnc [0]) "s" true true false).fst
        = Except.ok (lg, some rk, some kl) ∧
      lg.length = (constModel Int 2 [[4, 1]]).numLayers ∧ (∀ m ∈ lg, m = []) ∧
      rk.length = (constModel Int 2 [[4, 1]]).numLayers ∧ (∀ row ∈ rk, row = []) ∧
      kl.length = (constModel Int 2 [[4, 1]]).numLayers ∧
      (∀ row ∈ kl, row = []) := by
  have hwf : WellFormed (constModel Int 2 [[4, 1]]) (constEnc [0] "s") 2 := by
    intro l _
    refine ⟨rfl, ?_⟩
    show ∀ row ∈ ([[4, 1]] : Mat Int), row.length = 2
    decide
  exact ⟨by decide, by decide, hwf,
    C10_single_token id id (constEnc [0]) "s" false (by decide) (by decide) hwf⟩

/-- C3 counterexample: on a one-layer model whose logit vector at position 0
is `[5, 5]` with target id 1, the call returns rank 2 for the target (the two
tied ids receive ranks 1 and 2), while the claimed formula
`1 + #(strictly greater logits)` yields 1.  So the claim as stated fails at
layer 0, position 0 of this input. -/
theorem C3_counterexample :
    (generate_logit_lense (constModel Int 1 [[5, 5], [0, 1]]) id id
        (constEnc [0, 1]) "s" true true false).fst
      = Except.ok ([[[5, 5]]], some [[2]], some [[0]]) ∧
    ¬ ((2 : Nat) = 1 + ([5, 5] : List Int).countP
        (fun x => decide (([5, 5] : List Int).getD 1 0 < x))) := by
  constructor
  · rfl
  · decide

/-- C3 amended: if the target id's logit is distinct from every other
vocabulary id's logit at `(l, p)` (no tie on the target's value), then the
returned rank at layer `l`, position `p` equals 1 plus the number of
vocabulary ids with strictly greater logit, and the rank equals 1 exactly
when the target id attains the maximum logit.  (With ties the code assigns
the tied ids consecutive distinct ranks, so the count formula fails;
see the counterexample.) -/
theorem C3_rank_formula {α : Type} [LinearOrderedCommRing α]
    {M : HookedModel α} {expf logf : α → α} {encode : String → List Nat}
    {sentence : String} {kld ii : Bool} (l p : Nat)
    {lg : T3 α} {rk : Mat Nat} {k : Option (Mat α)}
    (h : (generate_logit_lense M expf logf encode sentence true kld ii).fst
        = Except.ok (lg, some rk, k))
    (hl : l < M.numLayers)
    (hp : p < ((encode sentence).drop 1).length)
    {w : List α} (hw : w = (M.run (encode sentence) l).getD p [])
    {tgt : Nat} (htg : tgt = ((encode sentence).drop 1).getD p 0)
    (hnotie : ∀ j, j < w.length → j ≠ tgt → w.getD j 0 ≠ w.getD tgt 0) :
    (rk.getD l []).getD p 0
        = 1 + w.countP (fun x => decide (w.getD tgt 0 < x)) ∧
    ((rk.getD l []).getD p 0 = 1 ↔ ∀ x ∈ w, x ≤ w.getD tgt 0) := by
  obtain ⟨h0, -, -, -, hcase⟩ := generate_logit_lense_ok h
  rcases hcase with ⟨hfalse, -⟩ | ⟨-, rr, hsel, hsome⟩
  · cases hfalse
  obtain rfl : rr = rk := by injection hsome with h'; exact h'.symm
  have hlt3 : l < ((((List.range M.numLayers).map (M.run (encode sentence))).map
      (fun m => m.map ranksOf))).length := by
    simpa using hl
  have hrow := selectRanks_ok_getD hsel l hlt3
  have hbounds := selectRowAux_ok_bounds hrow p hp
  have hval := selectRowAux_ok_getD hrow p hp
  simp only [Nat.zero_add] at hbounds hval
  -- identify the layer matrix: ranks of the raw logit rows of layer l
  have ht3l : (((List.range M.numLayers).map (M.run (encode sentence))).map
      (fun m => m.map ranksOf)).getD l [] = (M.run (encode sentence) l).map ranksOf := by
    rw [getD_eq_getElem_of_lt _ _ hlt3]
    simp [List.getElem_map]
  rw [ht3l] at hbounds hval
  have hpw : p < (M.run (encode sentence) l).length := by
    simpa using hbounds.1
  have hrowmat : ((M.run (encode sentence) l).map ranksOf).getD p []
      = ranksOf w := by
    rw [getD_eq_getElem_of_lt _ _ (by simpa using hpw), List.getElem_map, hw,
      getD_eq_getElem_of_lt _ _ hpw]
  rw [hrowmat] at hbounds hval
  have htgtw : tgt < w.length := by
    have := hbounds.2
    rw [length_ranksOf] at this
    rw [htg]
    exact this
  have hwt : w.getD tgt 0 = w[tgt] := getD_eq_getElem_of_lt _ _ htgtw
  -- the returned entry is the rank of the target inside `ranksOf w`
  have hentry : (rr.getD l []).getD p 0 = (ranksOf w).getD tgt 0 := by
    rw [hval, htg]
  have hrof := ranksOf_getElem? w htgtw
  have hentry2 : (rr.getD l []).getD p 0
      = 1 + w.enum.countP (fun a =>
          decide (descRel a (tgt, w[tgt])) &&
            !(decide (a = (tgt, w[tgt])))) := by
    rw [hentry, List.getD_eq_getElem?_getD, hrof]
    rfl
  -- under the no-tie hypothesis the count collapses to the strict count
  have hcong : w.enum.countP (fun a =>
      decide (descRel a (tgt, w[tgt])) &&
        !(decide (a = (tgt, w[tgt]))))
      = w.enum.countP (fun a => decide (w[tgt] < a.2)) := by
    apply List.countP_congr
    intro a ha
    obtain ⟨i, x⟩ := a
    have hx : w[i]? = some x := List.mk_mem_enum_iff_getElem?.mp ha
    obtain ⟨hi, hx'⟩ := List.getElem?_eq_some_iff.mp hx
    subst hx'
    simp only [Bool.and_eq_true, decide_eq_true_eq, Bool.not_eq_true',
      decide_eq_false_iff_not, descRel]
    constructor
    · rintro ⟨hlt | ⟨heq, hle⟩, hne⟩
      · exact hlt
      · exfalso
        by_cases hie : i = tgt
        · subst hie
          exact hne rfl
        · have := hnotie i hi hie
          rw [getD_eq_getElem_of_lt _ _ hi, hwt] at this
          exact this heq
    · intro hlt
      refine ⟨Or.inl hlt, fun hpair => ?_⟩
      have : w[i] = w[tgt] := congrArg Prod.snd hpair
      rw [this] at hlt
      exact lt_irrefl _ hlt
  have hsnd : w.enum.countP (fun a => decide (w[tgt] < a.2))
      = w.countP (fun x => decide (w[tgt] < x)) :=
    countP_enum_snd w (fun x => decide (w[tgt] < x))
  have hmain : (rr.getD l []).getD p 0
      = 1 + w.countP (fun x => decide (w.getD tgt 0 < x)) := by
    rw [hentry2, hcong, hsnd, hwt]
  refine ⟨hmain, ?_⟩
  rw [hmain]
  constructor
  · intro h1
    have hz : w.countP (fun x => decide (w.getD tgt 0 < x)) = 0 := by omega
    rw [List.countP_eq_zero] at hz
    intro x hxw
    have := hz x hxw
    simp only [decide_eq_true_eq] at this
    exact not_lt.mp this
  · intro hall
    have hz : w.countP (fun x => decide (w.getD tgt 0 < x)) = 0 := by
      rw [List.countP_eq_zero]
      intro x hxw
      simp only [decide_eq_true_eq]
      exact not_lt.mpr (hall x hxw)
    omega

/-- Witness for the amended C3: layer 0, position 0 of the concrete two-layer
model; the target id 2 has logit 2 in `[1, 7, 2]` (no ties), its returned
rank is 2 = 1 + 1, and it is not rank 1 since 7 > 2. -/
theorem C3_rank_formula_witness :
    (generate_logit_lense (constModel Int 2 [[1, 7, 2], [0, 3, 5]]) id id
        (constEnc [0, 2]) "s" true true false).fst
      = Except.ok ([[[1, 7, 2]], [[1, 7, 2]]], some [[2], [2]], some [[0], [0]]) ∧
    (([[2], [2]] : Mat Nat).getD 0 []).getD 0 0
        = 1 + ([1, 7, 2] : List Int).countP
            (fun x => decide (([1, 7, 2] : List Int).getD 2 0 < x)) ∧
    ¬ ((([[2], [2]] : Mat Nat).getD 0 []).getD 0 0 = 1) := by
  have hok : (generate_logit_lense (constModel Int 2 [[1, 7, 2], [0, 3, 5]]) id id
      (constEnc [0, 2]) "s" true true false).fst
      = Except.ok ([[[1, 7, 2]], [[1, 7, 2]]], some [[2], [2]], some [[0], [0]]) := by
    rfl
  have hres := C3_rank_formula 0 0 hok (by decide) (by decide) rfl rfl (by decide)
  refine ⟨hok, hres.1, fun h1 => ?_⟩
  have := hres.2.mp h1
  have h7 : (7 : Int) ≤ ([1, 7, 2] : List Int).getD 2 0 := this 7 (by decide)
  revert h7
  decide

/-- C9: the direction of the computed divergence is fixed with the final
layer as the reference distribution: every returned KL entry at layer `l`,
position `p` equals
`Σ_v softmax(final)[v] * (log_softmax(final)[v] - log_softmax(layer_l)[v])`,
i.e. `KL(P_final ∥ P_l)` of the raw logit vectors, not `KL(P_l ∥ P_final)`. -/
theorem C9_kl_direction {M : HookedModel ℝ} {encode : String → List Nat}
    {sentence : String} {rks ii : Bool} {l p : Nat} {vocab : Nat}
    {lg : T3 ℝ} {r : Option (Mat Nat)} {kl : Mat ℝ}
    (hwf : WellFormed M (encode sentence) vocab)
    (h : (generate_logit_lense M Real.exp Real.log encode sentence rks true ii).fst
        = Except.ok (lg, r, some kl))
    (hl : l < M.numLayers)
    (hp : p + 1 < (encode sentence).length) :
    (kl.getD l []).getD p 0
      = klDirSpec ((M.run (encode sentence) (M.numLayers - 1)).getD p [])
          ((M.run (encode sentence) l).getD p []) := by
  obtain ⟨h0, -, -, hk, -⟩ := generate_logit_lense_ok h
  obtain rfl : kl = sliceOffLast (klCompute Real.exp Real.log
      ((List.range M.numLayers).map (M.run (encode sentence)))) := by
    injection hk
  have hLlen : ((List.range M.numLayers).map (M.run (encode sentence))).length
      = M.numLayers := by simp
  have hll : l < ((List.range M.numLayers).map (M.run (encode sentence))).length := by
    omega
  have hfin : ((List.range M.numLayers).map (M.run (encode sentence))).length - 1
      < ((List.range M.numLayers).map (M.run (encode sentence))).length := by
    omega
  have hgetl : ((List.range M.numLayers).map (M.run (encode sentence)))[l]
      = M.run (encode sentence) l := by
    simp [List.getElem_map]
  have hgetf : ((List.range M.numLayers).map
        (M.run (encode sentence)))[((List.range M.numLayers).map
        (M.run (encode sentence))).length - 1]
      = M.run (encode sentence) (M.numLayers - 1) := by
    simp [List.getElem_map]
  -- the selected row of the (unsliced) KL tensor
  have hkc : l < (klCompute Real.exp Real.log
      ((List.range M.numLayers).map (M.run (encode sentence)))).length := by
    rw [klCompute_length]
    exact hll
  have hrow := klCompute_getElem Real.exp Real.log
    ((List.range M.numLayers).map (M.run (encode sentence))) l hll hkc
  rw [hgetl, hgetf] at hrow
  -- lengths of the two operand rows
  have hlenl : (M.run (encode sentence) l).length = (encode sentence).length :=
    (hwf l hl).1
  have hlenf : (M.run (encode sentence) (M.numLayers - 1)).length
      = (encode sentence).length := (hwf (M.numLayers - 1) (by omega)).1
  have hrowlen : ((klCompute Real.exp Real.log
      ((List.range M.numLayers).map (M.run (encode sentence))))[l]).length
      = (encode sentence).length := by
    rw [hrow, List.length_zipWith]
    simp [hlenl, hlenf]
  -- resolve the sliced getD access
  have hkl : l < (sliceOffLast (klCompute Real.exp Real.log
      ((List.range M.numLayers).map (M.run (encode sentence))))).length := by
    simp only [sliceOffLast, List.length_map, klCompute_length, List.length_range]
    exact hl
  rw [getD_eq_getElem_of_lt _ _ hkl]
  simp only [sliceOffLast, List.getElem_map]
  have hpd : p < ((klCompute Real.exp Real.log
      ((List.range M.numLayers).map
        (M.run (encode sentence))))[l]).dropLast.length := by
    rw [List.length_dropLast, hrowlen]
    omega
  rw [getD_eq_getElem_of_lt _ _ hpd, List.getElem_dropLast]
  -- extract the zipWith entry at position p
  have hpf : p < (M.run (encode sentence) (M.numLayers - 1)).length := by omega
  have hpl : p < (M.run (encode sentence) l).length := by omega
  have hcell : ((klCompute Real.exp Real.log
      ((List.range M.numLayers).map (M.run (encode sentence))))[l])[p]?
      = some (klPointwiseRow Real.exp
          (logSoftmaxVec Real.exp Real.log
            ((M.run (encode sentence) (M.numLayers - 1))[p]))
          (logSoftmaxVec Real.exp Real.log
            ((M.run (encode sentence) l)[p]))) := by
    rw [hrow, List.getElem?_zipWith]
    rw [List.getElem?_map, List.getElem?_map,
      List.getElem?_eq_getElem hpf, List.getElem?_eq_getElem hpl]
    rfl
  have hple : p < ((klCompute Real.exp Real.log
      ((List.range M.numLayers).map (M.run (encode sentence))))[l]).length := by
    rw [hrowlen]; omega
  rw [List.getElem?_eq_getElem hple] at hcell
  rw [Option.some.inj hcell, klPointwiseRow_eq_klDirSpec,
    getD_eq_getElem_of_lt _ _ hpf, getD_eq_getElem_of_lt _ _ hpl]

/-- Witness for C9 on a concrete one-layer real model with two positions. -/
theorem C9_kl_direction_witness :
    WellFormed (constModel ℝ 1 [[0], [1]]) (constEnc [0, 0] "s") 1 ∧
    (generate_logit_lense (constModel ℝ 1 [[0], [1]]) Real.exp Real.log
        (constEnc [0, 0]) "s" false true false).fst
      = Except.ok
          (sliceOffLast ((List.range (constModel ℝ 1 [[0], [1]]).numLayers).map
            ((constModel ℝ 1 [[0], [1]]).run (constEnc [0, 0] "s"))),
           none,
           some (sliceOffLast (klCompute Real.exp Real.log
             ((List.range (constModel ℝ 1 [[0], [1]]).numLayers).map
               ((constModel ℝ 1 [[0], [1]]).run (constEnc [0, 0] "s")))))) ∧
    ((sliceOffLast (klCompute Real.exp Real.log
        ((List.range (constModel ℝ 1 [[0], [1]]).numLayers).map
          ((constModel ℝ 1 [[0], [1]]).run (constEnc [0, 0] "s"))))).getD 0 []).getD 0 0
      = klDirSpec
          (((constModel ℝ 1 [[0], [1]]).run (constEnc [0, 0] "s")
            ((constModel ℝ 1 [[0], [1]]).numLayers - 1)).getD 0 [])
          (((constModel ℝ 1 [[0], [1]]).run (constEnc [0, 0] "s") 0).getD 0 []) := by
  have hwf : WellFormed (constModel ℝ 1 [[0], [1]]) (constEnc [0, 0] "s") 1 := by
    intro l _
    refine ⟨rfl, ?_⟩
    intro row hrow
    rcases List.mem_cons.mp hrow with rfl | hrow'
    · rfl
    · rcases List.mem_singleton.mp hrow' with rfl
      rfl
  have hok : (generate_logit_lense (constModel ℝ 1 [[0], [1]]) Real.exp Real.log
      (constEnc [0, 0]) "s" false true false).fst
      = Except.ok
          (sliceOffLast ((List.range (constModel ℝ 1 [[0], [1]]).numLayers).map
            ((constModel ℝ 1 [[0], [1]]).run (constEnc [0, 0] "s"))),
           none,
           some (sliceOffLast (klCompute Real.exp Real.log
             ((List.range (constModel ℝ 1 [[0], [1]]).numLayers).map
               ((constModel ℝ 1 [[0], [1]]).run (constEnc [0, 0] "s")))))) := by
    rfl
  exact ⟨hwf, hok, C9_kl_direction hwf hok (by decide) (by decide)⟩

end Unseal
